import Mathlib

/-!
# Worker pool of `main.go`: identifier allocation, removal, shutdown, transliteration

A shallow embedding of `src/main.go` and the properties of its specification.

* Go `int` is the 64-bit two's-complement integer: `wp.nextID++` wraps (`wrapInt`).
  The counter can only wrap after `2^63 - 1` identifiers have been minted, and an
  identifier is minted only while no released one is available; statements that depend on
  the allocator therefore bound the number of calls by `maxInt`.
* Channels live in a heap `chans` of "closed" flags; a channel value is its index.
  `make(chan ...)` appends an open channel, `close` of a closed channel is a
  run-time panic.
* A Go map is an association list with at most one entry per key; the order of a `range`
  over it is a parameter (`rangeOrder`).
* `*os.File`, `*log.Logger` and standard output are the lists of strings written
  so far by the pool operations (the logger's time stamp is not part of an entry).
* A worker goroutine is represented by its `Worker` value in `goroutines` from
  `Start` until its loop returns; the loop can return once its `quit` channel or
  the `jobs` channel is closed.  The pool observes these returns only in
  `wg.Wait()`, so the model lets them happen there.  Records travelling through `jobs`
  and the lines the goroutines write are outside this sequential model.
* A Go string is its byte sequence (`List Nat`, bytes below 256); `range` over a
  string and `string(rune)` follow the Go language specification.  The `time.Sleep` of
  some_func has no effect on its result and is left out.
-/

namespace VkTest

/-! ## Go values -/

/-- Two's-complement wrap-around of a mathematical integer to a 64-bit Go `int`. -/
def wrapInt (x : Int) : Int :=
  (x + 9223372036854775808) % 18446744073709551616 - 9223372036854775808

/-- Worker (lines 28-32): `jobs` and `quit` are channel handles into the channel heap. -/
structure Worker where
  id : Int
  jobs : Nat
  quit : Nat
  deriving DecidableEq, Repr

/-- WorkerPool (lines 17-25) together with the part of the process state its methods
touch: standard output, the channel heap and the worker goroutines still in their loop. -/
structure WorkerPool where
  jobs : Nat
  workers : List (Int × Worker)
  availableIDs : List Int
  nextID : Int
  wg : Nat
  output : List String
  logger : List String
  stdout : List String
  chans : List Bool
  goroutines : List Worker
  deriving DecidableEq, Repr

/-- Run-time panics the pool operations can raise. -/
inductive Panic where
  | nilDereference
  | closeOfClosedChannel
  deriving DecidableEq, Repr

/-- How a call ends: it returns (`done`), the process aborts with a panic, or the call
blocks for ever.  Each case carries the pool state at that moment. -/
inductive Outcome where
  | done (wp : WorkerPool)
  | panic (p : Panic) (wp : WorkerPool)
  | blocked (wp : WorkerPool)
  deriving DecidableEq, Repr

/-- Pool state at the moment the call ended. -/
def Outcome.pool : Outcome → WorkerPool
  | .done wp => wp
  | .panic _ wp => wp
  | .blocked wp => wp

/-! ## Go maps keyed by `int` -/

/-- Map index expression `m[k]` with the comma-ok form: `none` when the key is absent. -/
def mapLookup (k : Int) : List (Int × Worker) → Option Worker
  | [] => none
  | (k', w) :: m => if k' = k then some w else mapLookup k m

/-- Builtin `delete(m, k)`. -/
def mapDelete (k : Int) (m : List (Int × Worker)) : List (Int × Worker) :=
  m.filter (fun e => !decide (e.1 = k))

/-- Assignment `m[k] = w`: any previous entry of `k` is replaced. -/
def mapInsert (k : Int) (w : Worker) (m : List (Int × Worker)) : List (Int × Worker) :=
  mapDelete k m ++ [(k, w)]

/-- Keys of a map. -/
def mapKeys (m : List (Int × Worker)) : List Int :=
  m.map Prod.fst

/-- An order in which `for id := range m` can visit the keys `keys`.  Go leaves the order
unspecified; `choice` is the run-time's pick.  The result lists every key exactly once,
and every such listing is obtained by passing it as `choice`. -/
def rangeOrder (choice keys : List Int) : List Int :=
  (choice.dedup.filter (fun k => decide (k ∈ keys))) ++
    keys.filter (fun k => !decide (k ∈ choice))

/-! ## Channels -/

/-- Whether channel `c` has been closed. -/
def isClosed (wp : WorkerPool) (c : Nat) : Bool :=
  wp.chans[c]?.getD false

/-- Builtin `close(c)`: panics when `c` is already closed. -/
def closeChan (wp : WorkerPool) (c : Nat) : Outcome :=
  if isClosed wp c then .panic .closeOfClosedChannel wp
  else .done { wp with chans := wp.chans.set c true }

/-! ## Workers -/

/-- NewWorker (lines 35-41): `make(chan struct{})` allocates a fresh open channel. -/
def NewWorker (id : Int) (jobs : Nat) (wp : WorkerPool) : Worker × WorkerPool :=
  ({ id := id, jobs := jobs, quit := wp.chans.length },
   { wp with chans := wp.chans ++ [false] })

/-- Worker.Start (lines 74-95): `wg.Add(1)` and the `go` statement. -/
def Worker.Start (w : Worker) (wp : WorkerPool) : WorkerPool :=
  { wp with wg := wp.wg + 1, goroutines := wp.goroutines ++ [w] }

/-- The loop of lines 78-93 can return: the receive from `jobs` reports a closed channel
or the receive from `quit` is ready. -/
def Worker.canReturn (w : Worker) (wp : WorkerPool) : Bool :=
  isClosed wp w.jobs || isClosed wp w.quit

/-- Worker.Stop (lines 98-100). -/
def Worker.Stop (w : Worker) (wp : WorkerPool) : Outcome :=
  closeChan wp w.quit

/-- The call `wp.wg.Wait()`: every goroutine whose loop can return does so and runs its
deferred `wg.Done()`; the call returns when the counter is zero and blocks otherwise. -/
def Wait (wp : WorkerPool) : Outcome :=
  let stay := wp.goroutines.filter (fun w => !(w.canReturn wp))
  let wp1 := { wp with
    goroutines := stay
    wg := wp.wg - (wp.goroutines.length - stay.length) }
  if wp1.wg = 0 then .done wp1 else .blocked wp1

/-! ## Worker pool -/

/-- NewWorkerPool (lines 103-111); `make(chan string)` is channel 0 of a fresh heap. -/
def NewWorkerPool : WorkerPool :=
  { jobs := 0
    workers := []
    availableIDs := []
    nextID := 1
    wg := 0
    output := []
    logger := []
    stdout := []
    chans := [false]
    goroutines := [] }

/-- The local variable `ID` of AddWorker after the `if` of lines 115-121. -/
def AddWorker_ID (wp : WorkerPool) : Int :=
  match wp.availableIDs with
  | [] => wp.nextID
  | k :: _ => k

/-- AddWorker (lines 114-128). -/
def AddWorker (wp : WorkerPool) : WorkerPool :=
  let ID := AddWorker_ID wp
  let wp1 : WorkerPool :=
    match wp.availableIDs with
    | [] => { wp with nextID := wrapInt (wp.nextID + 1) }
    | _ :: rest => { wp with availableIDs := rest }
  let (worker, wp2) := NewWorker ID wp1.jobs wp1
  let wp3 := worker.Start wp2
  let wp4 := { wp3 with workers := mapInsert ID worker wp3.workers }
  let wp5 := { wp4 with
    logger := wp4.logger ++ ["Вооркер " ++ toString worker.id ++ " запущен\n"] }
  { wp5 with stdout := wp5.stdout ++ ["Воркер " ++ toString worker.id ++ " запущен\n"] }

/-- RemoveWorker (lines 131-144).  When the key is absent `worker` is the nil pointer and
`worker.id` on line 135 dereferences it. -/
def RemoveWorker (wp : WorkerPool) (id : Int) : Outcome :=
  match mapLookup id wp.workers with
  | none =>
    let wp1 := { wp with
      logger := wp.logger ++ ["Воркер с ID " ++ toString id ++ " не найден\n"] }
    .panic .nilDereference wp1
  | some worker =>
    match worker.Stop wp with
    | .done wp1 =>
      let wp2 := { wp1 with workers := mapDelete id wp1.workers }
      let wp3 := { wp2 with availableIDs := wp2.availableIDs ++ [id] }
      let wp4 := { wp3 with
        output := wp3.output ++ ["Воркер " ++ toString worker.id ++ " остановлен\n"] }
      .done { wp4 with
        stdout := wp4.stdout ++ ["Воркер " ++ toString worker.id ++ " остановлен\n"] }
    | o => o

/-- The loop of lines 148-150 over the keys in the order `ids`. -/
def Shutdown_range (wp : WorkerPool) : List Int → Outcome
  | [] => .done wp
  | id :: ids =>
    match RemoveWorker wp id with
    | .done wp1 => Shutdown_range wp1 ids
    | o => o

/-- Shutdown (lines 147-154); `choice` fixes the order of the map iteration. -/
def Shutdown (choice : List Int) (wp : WorkerPool) : Outcome :=
  match Shutdown_range wp (rangeOrder choice (mapKeys wp.workers)) with
  | .done wp1 =>
    match Wait wp1 with
    | .done wp2 =>
      let wp3 := { wp2 with logger := wp2.logger ++ ["Worker pool завершил работу!"] }
      .done { wp3 with stdout := wp3.stdout ++ ["Worker pool завершил работу!\n"] }
    | o => o
  | o => o

/-! ## The operator's command 3 -/

/-- Case 3 of the command switch in main (lines 237-247) for an operator who types `id`
at the prompt; `len(wp.workers)` is the number of registry entries. -/
def main_case3 (wp : WorkerPool) (id : Int) : Outcome :=
  if wp.workers.length = 0 then
    .done { wp with stdout := wp.stdout ++ ["Нет запущенных воркеров для остановки!\n"] }
  else
    RemoveWorker { wp with stdout := wp.stdout ++ ["Введите ID воркера для остановки: "] } id

/-! ## Sequences of calls -/

/-- A call on the pool. -/
inductive Cmd where
  | add
  | remove (id : Int)
  | shutdown (choice : List Int)
  deriving DecidableEq, Repr

/-- One call. -/
def step (wp : WorkerPool) : Cmd → Outcome
  | .add => .done (AddWorker wp)
  | .remove id => RemoveWorker wp id
  | .shutdown choice => Shutdown choice wp

/-- Calls executed one after another; a panic or a blocked call ends the run. -/
def exec (wp : WorkerPool) : List Cmd → Outcome
  | [] => .done wp
  | c :: cs =>
    match step wp c with
    | .done wp1 => exec wp1 cs
    | o => o

/-! ## Strings and runes -/

/-- The Unicode replacement character U+FFFD (`utf8.RuneError`). -/
def RuneError : Nat := 0xFFFD

/-- A UTF-8 continuation byte, `0x80 ≤ b ≤ 0xBF`. -/
def isCont (b : Nat) : Bool :=
  decide (0x80 ≤ b) && decide (b ≤ 0xBF)

/-- One iteration of `for _, char := range input` on a non-empty rest of the string: the
rune and the number of bytes consumed.  A byte that does not start a well-formed UTF-8
sequence (shortest form, no surrogate, at most U+10FFFF) yields U+FFFD and width 1. -/
def decodeRune : List Nat → Nat × Nat
  | [] => (RuneError, 1)
  | b0 :: rest =>
    if b0 < 0x80 then (b0, 1)
    else if 0xC0 ≤ b0 ∧ b0 < 0xE0 then
      match rest with
      | b1 :: _ =>
        let r := (b0 % 32) * 64 + b1 % 64
        if isCont b1 ∧ 0x7F < r then (r, 2) else (RuneError, 1)
      | _ => (RuneError, 1)
    else if 0xE0 ≤ b0 ∧ b0 < 0xF0 then
      match rest with
      | b1 :: b2 :: _ =>
        let r := (b0 % 16) * 4096 + (b1 % 64) * 64 + b2 % 64
        if isCont b1 ∧ isCont b2 ∧ 0x7FF < r ∧ ¬ (0xD800 ≤ r ∧ r ≤ 0xDFFF) then (r, 3)
        else (RuneError, 1)
      | _ => (RuneError, 1)
    else if 0xF0 ≤ b0 ∧ b0 < 0xF8 then
      match rest with
      | b1 :: b2 :: b3 :: _ =>
        let r := (b0 % 8) * 262144 + (b1 % 64) * 4096 + (b2 % 64) * 64 + b3 % 64
        if isCont b1 ∧ isCont b2 ∧ isCont b3 ∧ 0xFFFF < r ∧ r ≤ 0x10FFFF then (r, 4)
        else (RuneError, 1)
      | _ => (RuneError, 1)
    else (RuneError, 1)

/-- The runes that `for _, char := range input` yields, at most `fuel` of them. -/
def runes_loop : Nat → List Nat → List Nat
  | 0, _ => []
  | _ + 1, [] => []
  | fuel + 1, b :: bs =>
    let rw := decodeRune (b :: bs)
    rw.1 :: runes_loop fuel ((b :: bs).drop rw.2)

/-- The runes that `for _, char := range input` yields: every iteration consumes at least
one byte, so `input.length` iterations are enough. -/
def runes (input : List Nat) : List Nat :=
  runes_loop input.length input

/-- A Unicode scalar value: a code point that is not a surrogate. -/
def isScalar (n : Nat) : Prop :=
  n < 0xD800 ∨ (0xDFFF < n ∧ n < 0x110000)

/-- The conversion `string(char)` of a rune: its UTF-8 encoding, and the encoding of
U+FFFD for a value that is not a Unicode scalar value. -/
def encodeRune (r : Nat) : List Nat :=
  if r < 0x80 then [r]
  else if r < 0x800 then [0xC0 + r / 64, 0x80 + r % 64]
  else if (0xD800 ≤ r ∧ r ≤ 0xDFFF) ∨ 0x10FFFF < r then [0xEF, 0xBF, 0xBD]
  else if r < 0x10000 then [0xE0 + r / 4096, 0x80 + r / 64 % 64, 0x80 + r % 64]
  else [0xF0 + r / 262144, 0x80 + r / 4096 % 64, 0x80 + r / 64 % 64, 0x80 + r % 64]

/-- Bytes of the Go string whose content is the text `cs`. -/
def utf8 (cs : List Char) : List Nat :=
  cs.flatMap (fun c => encodeRune c.toNat)

/-- Bytes of a Go string literal. -/
def goString (s : String) : List Nat :=
  utf8 s.data

/-! ## Transliteration -/

/-- The entries of `translitMap` (lines 43-52). -/
def translitTable : List (Char × String) :=
  [('а', "a"), ('б', "b"), ('в', "v"), ('г', "g"), ('д', "d"), ('е', "e"), ('ё', "yo"),
   ('ж', "zh"), ('з', "z"),
   ('и', "i"), ('й', "y"), ('к', "k"), ('л', "l"), ('м', "m"), ('н', "n"), ('о', "o"),
   ('п', "p"), ('р', "r"),
   ('с', "s"), ('т', "t"), ('у', "u"), ('ф', "f"), ('х', "kh"), ('ц', "ts"), ('ч', "ch"),
   ('ш', "sh"), ('щ', "shch"),
   ('ъ', ""), ('ы', "y"), ('ь', "'"), ('э', "e"), ('ю', "yu"), ('я', "ya"),
   ('А', "A"), ('Б', "B"), ('В', "V"), ('Г', "G"), ('Д', "D"), ('Е', "E"), ('Ё', "Yo"),
   ('Ж', "Zh"), ('З', "Z"),
   ('И', "I"), ('Й', "Y"), ('К', "K"), ('Л', "L"), ('М', "M"), ('Н', "N"), ('О', "O"),
   ('П', "P"), ('Р', "R"),
   ('С', "S"), ('Т', "T"), ('У', "U"), ('Ф', "F"), ('Х', "Kh"), ('Ц', "Ts"), ('Ч', "Ch"),
   ('Ш', "Sh"), ('Щ', "Shch"),
   ('Ъ', ""), ('Ы', "Y"), ('Ь', "'"), ('Э', "E"), ('Ю', "Yu"), ('Я', "Ya")]

/-- The lookup `translitMap[char]` with the comma-ok form. -/
def translitMap (char : Nat) : Option (List Nat) :=
  (translitTable.find? (fun e => decide (e.1.toNat = char))).map (fun e => goString e.2)

/-- What one iteration of the loop of lines 63-69 appends to `output`. -/
def translitStep (char : Nat) : List Nat :=
  match translitMap char with
  | some translitChar => translitChar
  | none => encodeRune char

/-- The loop of lines 63-69; `fuel` bounds the number of iterations. -/
def some_func_loop : Nat → List Nat → List Nat → List Nat
  | 0, _, output => output
  | _ + 1, [], output => output
  | fuel + 1, b :: bs, output =>
    let rw := decodeRune (b :: bs)
    some_func_loop fuel ((b :: bs).drop rw.2) (output ++ translitStep rw.1)

/-- The function some_func (lines 55-71), without the `time.Sleep`.  Every iteration
consumes at least one byte, so `input.length` iterations are enough. -/
def some_func (input : List Nat) : List Nat :=
  some_func_loop input.length input []

/-! ## Invariants -/

/-- The largest value of a 64-bit Go `int`. -/
def maxInt : Int := 9223372036854775807

/-- The registry and the channel heap are well formed: one entry per key, every worker
stored under its own identifier, registered workers own pairwise distinct, allocated and
still open `quit` channels, and the WaitGroup counts the goroutines in their loop. -/
structure RegistryOK (s : WorkerPool) : Prop where
  keys_nodup : (mapKeys s.workers).Nodup
  id_eq : ∀ e ∈ s.workers, e.2.id = e.1
  quit_lt : ∀ e ∈ s.workers, e.2.quit < s.chans.length
  quit_open : ∀ e ∈ s.workers, isClosed s e.2.quit = false
  quit_nodup : (s.workers.map (fun e => e.2.quit)).Nodup
  wg_eq : s.wg = s.goroutines.length
  gor_lt : ∀ g ∈ s.goroutines, g.quit < s.chans.length

/-- The identifier allocator is consistent with the registry: identifiers in use and
released identifiers lie in `1 .. nextID - 1`, no identifier is released twice or
released while registered, and a goroutine whose `quit` is open is registered. -/
structure AllocOK (s : WorkerPool) : Prop where
  next_pos : 1 ≤ s.nextID
  key_range : ∀ k ∈ mapKeys s.workers, 1 ≤ k ∧ k < s.nextID
  avail_range : ∀ k ∈ s.availableIDs, 1 ≤ k ∧ k < s.nextID
  avail_nodup : s.availableIDs.Nodup
  disjoint : ∀ k ∈ s.availableIDs, k ∉ mapKeys s.workers
  gor_open : ∀ g ∈ s.goroutines, isClosed s g.quit = false →
    ∃ e ∈ s.workers, e.2.quit = g.quit

/-! ## Maps -/

theorem mapKeys_mapDelete (k : Int) (m : List (Int × Worker)) :
    mapKeys (mapDelete k m) = (mapKeys m).filter (fun k' => !decide (k' = k)) := by
  induction m with
  | nil => rfl
  | cons e m ih =>
    simp only [mapDelete, mapKeys] at ih ⊢
    by_cases h : e.1 = k <;> simp [List.filter_cons, h, ih]

theorem mapKeys_mapInsert (k : Int) (w : Worker) (m : List (Int × Worker)) :
    mapKeys (mapInsert k w m) = (mapKeys m).filter (fun k' => !decide (k' = k)) ++ [k] := by
  rw [← mapKeys_mapDelete]
  simp [mapInsert, mapKeys]

theorem mapLookup_eq_none_iff (k : Int) (m : List (Int × Worker)) :
    mapLookup k m = none ↔ k ∉ mapKeys m := by
  induction m with
  | nil => simp [mapLookup, mapKeys]
  | cons e m ih =>
    obtain ⟨k', w⟩ := e
    by_cases h : k' = k
    · simp [mapLookup, mapKeys, h]
    · have h' : ¬ k = k' := fun e => h e.symm
      simp [mapLookup, h, h', mapKeys] at ih ⊢
      exact ih

theorem mem_of_mapLookup {k : Int} {w : Worker} {m : List (Int × Worker)}
    (h : mapLookup k m = some w) : (k, w) ∈ m := by
  induction m with
  | nil => simp [mapLookup] at h
  | cons e m ih =>
    obtain ⟨k', w'⟩ := e
    by_cases hk : k' = k
    · simp [mapLookup, hk] at h
      simp [hk, h]
    · simp [mapLookup, hk] at h
      exact List.mem_cons_of_mem _ (ih h)

theorem mapLookup_of_mem {k : Int} {w : Worker} {m : List (Int × Worker)}
    (hn : (mapKeys m).Nodup) (h : (k, w) ∈ m) : mapLookup k m = some w := by
  induction m with
  | nil => simp at h
  | cons e m ih =>
    obtain ⟨k', w'⟩ := e
    simp only [mapKeys, List.map_cons, List.nodup_cons] at hn
    rcases List.mem_cons.1 h with h | h
    · cases h
      simp [mapLookup]
    · have hk : k' ≠ k := by
        intro e
        apply hn.1
        rw [e]
        exact List.mem_map_of_mem Prod.fst h
      simp [mapLookup, hk]
      exact ih hn.2 h

theorem mem_mapKeys_of_mapLookup {k : Int} {w : Worker} {m : List (Int × Worker)}
    (h : mapLookup k m = some w) : k ∈ mapKeys m :=
  List.mem_map_of_mem Prod.fst (mem_of_mapLookup h)

theorem mem_mapDelete {k : Int} {e : Int × Worker} {m : List (Int × Worker)} :
    e ∈ mapDelete k m ↔ e ∈ m ∧ e.1 ≠ k := by
  simp [mapDelete]

theorem mem_mapInsert {k : Int} {w : Worker} {e : Int × Worker} {m : List (Int × Worker)} :
    e ∈ mapInsert k w m ↔ (e ∈ m ∧ e.1 ≠ k) ∨ e = (k, w) := by
  simp [mapInsert, mapDelete]

theorem mapLookup_mapInsert_self (k : Int) (w : Worker) (m : List (Int × Worker)) :
    mapLookup k (mapInsert k w m) = some w := by
  induction m with
  | nil => simp [mapInsert, mapDelete, mapLookup]
  | cons e m ih =>
    obtain ⟨k', w'⟩ := e
    by_cases hk : k' = k
    · simpa [mapInsert, mapDelete, hk] using ih
    · simpa [mapInsert, mapDelete, hk, mapLookup] using ih

theorem mapLookup_mapInsert_of_ne {k k' : Int} (w : Worker) (m : List (Int × Worker))
    (h : k' ≠ k) : mapLookup k' (mapInsert k w m) = mapLookup k' m := by
  induction m with
  | nil => simp [mapInsert, mapDelete, mapLookup, h.symm]
  | cons e m ih =>
    obtain ⟨k'', w''⟩ := e
    by_cases hk : k'' = k
    · have : ¬ k'' = k' := by rw [hk]; exact h.symm
      simpa [mapInsert, mapDelete, hk, mapLookup, h.symm] using ih
    · by_cases hk' : k'' = k'
      · subst hk'
        simp [mapInsert, mapDelete, hk, mapLookup, List.filter_cons]
      · simpa [mapInsert, mapDelete, hk, mapLookup, hk'] using ih

/-! ## The order of a map iteration -/

theorem rangeOrder_nodup (choice keys : List Int) (h : keys.Nodup) :
    (rangeOrder choice keys).Nodup := by
  unfold rangeOrder
  refine List.Nodup.append ((List.nodup_dedup choice).filter _) (h.filter _) ?_
  intro k h1 h2
  simp only [List.mem_filter, List.mem_dedup, decide_eq_true_eq, Bool.not_eq_true',
    decide_eq_false_iff_not] at h1 h2
  exact h2.2 h1.1

theorem mem_rangeOrder (choice keys : List Int) (k : Int) :
    k ∈ rangeOrder choice keys ↔ k ∈ keys := by
  unfold rangeOrder
  simp only [List.mem_append, List.mem_filter, List.mem_dedup, decide_eq_true_eq,
    Bool.not_eq_true', decide_eq_false_iff_not]
  by_cases hc : k ∈ choice <;> simp [hc]

/-- Every listing of the keys without repetition is an order `rangeOrder` can produce. -/
theorem rangeOrder_of_perm (order keys : List Int) (hk : keys.Nodup) (h : order.Perm keys) :
    rangeOrder order keys = order := by
  have hn : order.Nodup := h.nodup_iff.2 hk
  unfold rangeOrder
  have h1 : order.dedup.filter (fun k => decide (k ∈ keys)) = order := by
    rw [hn.dedup]
    apply List.filter_eq_self.2
    intro k hk'
    simpa using h.subset hk'
  have h2 : keys.filter (fun k => !decide (k ∈ order)) = [] := by
    apply List.filter_eq_nil_iff.2
    intro k hk'
    simpa using h.symm.subset hk'
  rw [h1, h2, List.append_nil]

/-! ## Channel heap -/

theorem getElem?_append_false (l : List Bool) (c : Nat) :
    (l ++ [false])[c]?.getD false = l[c]?.getD false := by
  induction l generalizing c with
  | nil => cases c <;> simp
  | cons b l ih => cases c <;> simp [ih]

theorem getElem?_set_true (l : List Bool) (q c : Nat) :
    (l.set q true)[c]?.getD false = if c = q ∧ q < l.length then true else l[c]?.getD false := by
  induction l generalizing c q with
  | nil => simp
  | cons b l ih =>
    cases q <;> cases c <;> simp [ih]

/-! ## The pool operations in closed form -/

theorem AddWorker_eq (wp : WorkerPool) :
    AddWorker wp =
      { wp with
        workers := mapInsert (AddWorker_ID wp) ⟨AddWorker_ID wp, wp.jobs, wp.chans.length⟩ wp.workers
        availableIDs := wp.availableIDs.tail
        nextID := if wp.availableIDs = [] then wrapInt (wp.nextID + 1) else wp.nextID
        wg := wp.wg + 1
        chans := wp.chans ++ [false]
        goroutines := wp.goroutines ++ [⟨AddWorker_ID wp, wp.jobs, wp.chans.length⟩]
        logger := wp.logger ++ ["Вооркер " ++ toString (AddWorker_ID wp) ++ " запущен\n"]
        stdout := wp.stdout ++ ["Воркер " ++ toString (AddWorker_ID wp) ++ " запущен\n"] } := by
  cases h : wp.availableIDs <;> simp [AddWorker, NewWorker, Worker.Start, h]

theorem RemoveWorker_of_absent (wp : WorkerPool) (id : Int) (h : mapLookup id wp.workers = none) :
    RemoveWorker wp id = .panic .nilDereference
      { wp with logger := wp.logger ++ ["Воркер с ID " ++ toString id ++ " не найден\n"] } := by
  simp [RemoveWorker, h]

theorem RemoveWorker_of_open (wp : WorkerPool) (id : Int) (w : Worker)
    (h : mapLookup id wp.workers = some w) (ho : isClosed wp w.quit = false) :
    RemoveWorker wp id = .done
      { wp with
        workers := mapDelete id wp.workers
        availableIDs := wp.availableIDs ++ [id]
        chans := wp.chans.set w.quit true
        output := wp.output ++ ["Воркер " ++ toString w.id ++ " остановлен\n"]
        stdout := wp.stdout ++ ["Воркер " ++ toString w.id ++ " остановлен\n"] } := by
  simp [RemoveWorker, h, Worker.Stop, closeChan, ho]

theorem RemoveWorker_of_closed (wp : WorkerPool) (id : Int) (w : Worker)
    (h : mapLookup id wp.workers = some w) (ho : isClosed wp w.quit = true) :
    RemoveWorker wp id = .panic .closeOfClosedChannel wp := by
  simp [RemoveWorker, h, Worker.Stop, closeChan, ho]


/-! ## Well-formedness of the registry is preserved -/

theorem RegistryOK_NewWorkerPool : RegistryOK NewWorkerPool := by
  constructor <;> simp [NewWorkerPool, mapKeys]

theorem RegistryOK_AddWorker {s : WorkerPool} (h : RegistryOK s) : RegistryOK (AddWorker s) := by
  rw [AddWorker_eq]
  constructor
  · simp only [mapKeys_mapInsert]
    refine List.Nodup.append (h.keys_nodup.filter _) (List.nodup_singleton _) ?_
    intro k h1 h2
    simp at h1 h2
    exact h1.2 h2
  · intro e he
    rcases mem_mapInsert.1 he with ⟨he, _⟩ | rfl
    · exact h.id_eq e he
    · rfl
  · intro e he
    simp only [List.length_append, List.length_singleton]
    rcases mem_mapInsert.1 he with ⟨he, _⟩ | rfl
    · exact Nat.lt_succ_of_lt (h.quit_lt e he)
    · exact Nat.lt_succ_self _
  · intro e he
    simp only [isClosed, getElem?_append_false]
    rcases mem_mapInsert.1 he with ⟨he, _⟩ | rfl
    · exact h.quit_open e he
    · simp
  · simp only [mapInsert, mapDelete, List.map_append, List.map_cons, List.map_nil]
    refine List.Nodup.append (h.quit_nodup.sublist ((List.filter_sublist _).map _))
      (List.nodup_singleton _) ?_
    intro q h1 h2
    simp only [List.mem_singleton] at h2
    obtain ⟨e, he, rfl⟩ := List.mem_map.1 h1
    have := h.quit_lt e (List.mem_filter.1 he).1
    omega
  · simp [h.wg_eq]
  · intro g hg
    simp only [List.length_append, List.length_singleton]
    rcases List.mem_append.1 hg with hg | hg
    · exact Nat.lt_succ_of_lt (h.gor_lt g hg)
    · simp only [List.mem_singleton] at hg
      subst hg
      exact Nat.lt_succ_self _

theorem quit_ne_of_key_ne {s : WorkerPool} (h : RegistryOK s) {e e' : Int × Worker}
    (he : e ∈ s.workers) (he' : e' ∈ s.workers) (hk : e.1 ≠ e'.1) : e.2.quit ≠ e'.2.quit := by
  intro hq
  have := List.inj_on_of_nodup_map h.quit_nodup he he' hq
  exact hk (by rw [this])

theorem RegistryOK_remove {s : WorkerPool} (h : RegistryOK s) {id : Int} {w : Worker}
    (hw : mapLookup id s.workers = some w) :
    RegistryOK { s with
        workers := mapDelete id s.workers
        availableIDs := s.availableIDs ++ [id]
        chans := s.chans.set w.quit true
        output := s.output ++ ["Воркер " ++ toString w.id ++ " остановлен\n"]
        stdout := s.stdout ++ ["Воркер " ++ toString w.id ++ " остановлен\n"] } := by
  have hmem := mem_of_mapLookup hw
  constructor
  · simp only [mapKeys_mapDelete]
    exact h.keys_nodup.filter _
  · intro e he
    exact h.id_eq e (mem_mapDelete.1 he).1
  · intro e he
    simp only [List.length_set]
    exact h.quit_lt e (mem_mapDelete.1 he).1
  · intro e he
    obtain ⟨he1, he2⟩ := mem_mapDelete.1 he
    have hne : e.2.quit ≠ w.quit := quit_ne_of_key_ne h he1 hmem he2
    simp only [isClosed, getElem?_set_true, hne, false_and, if_false]
    exact h.quit_open e he1
  · exact h.quit_nodup.sublist ((List.filter_sublist _).map _)
  · exact h.wg_eq
  · intro g hg
    simp only [List.length_set]
    exact h.gor_lt g hg

theorem RemoveWorker_registered {s : WorkerPool} (h : RegistryOK s) {id : Int} {w : Worker}
    (hw : mapLookup id s.workers = some w) :
    RemoveWorker s id = .done
      { s with
        workers := mapDelete id s.workers
        availableIDs := s.availableIDs ++ [id]
        chans := s.chans.set w.quit true
        output := s.output ++ ["Воркер " ++ toString w.id ++ " остановлен\n"]
        stdout := s.stdout ++ ["Воркер " ++ toString w.id ++ " остановлен\n"] } :=
  RemoveWorker_of_open s id w hw (h.quit_open _ (mem_of_mapLookup hw))

theorem RegistryOK_RemoveWorker {s s' : WorkerPool} (h : RegistryOK s) {id : Int}
    (hr : RemoveWorker s id = .done s') : RegistryOK s' := by
  cases hw : mapLookup id s.workers with
  | none => rw [RemoveWorker_of_absent s id hw] at hr; cases hr
  | some w =>
    rw [RemoveWorker_registered h hw] at hr
    cases hr
    exact RegistryOK_remove h hw

theorem RemoveWorker_not_closeOfClosed {s s' : WorkerPool} (h : RegistryOK s) (id : Int) :
    RemoveWorker s id ≠ .panic .closeOfClosedChannel s' := by
  cases hw : mapLookup id s.workers with
  | none => rw [RemoveWorker_of_absent s id hw]; intro hr; cases hr
  | some w => rw [RemoveWorker_registered h hw]; intro hr; cases hr

theorem RegistryOK_Shutdown_range {ids : List Int} {s s' : WorkerPool} (h : RegistryOK s)
    (hr : Shutdown_range s ids = .done s') : RegistryOK s' := by
  induction ids generalizing s with
  | nil => simp only [Shutdown_range] at hr; cases hr; exact h
  | cons id ids ih =>
    cases h1 : RemoveWorker s id with
    | done s1 =>
      simp only [Shutdown_range, h1] at hr
      exact ih (RegistryOK_RemoveWorker h h1) hr
    | panic p s1 => simp [Shutdown_range, h1] at hr
    | blocked s1 => simp [Shutdown_range, h1] at hr

theorem Shutdown_range_not_closeOfClosed {ids : List Int} {s s' : WorkerPool}
    (h : RegistryOK s) : Shutdown_range s ids ≠ .panic .closeOfClosedChannel s' := by
  induction ids generalizing s with
  | nil => simp [Shutdown_range]
  | cons id ids ih =>
    cases h1 : RemoveWorker s id with
    | done s1 =>
      simp only [Shutdown_range, h1]
      exact ih (RegistryOK_RemoveWorker h h1)
    | panic p s1 =>
      simp only [Shutdown_range, h1]
      rw [← h1]
      exact RemoveWorker_not_closeOfClosed h id
    | blocked s1 => simp [Shutdown_range, h1]

theorem Wait_eq (s : WorkerPool) :
    (Wait s).pool = { s with
      goroutines := s.goroutines.filter (fun w => !(w.canReturn s))
      wg := s.wg - (s.goroutines.length -
        (s.goroutines.filter (fun w => !(w.canReturn s))).length) } := by
  unfold Wait
  simp only
  split <;> rfl

theorem Wait_not_panic (s s' : WorkerPool) (p : Panic) : Wait s ≠ .panic p s' := by
  unfold Wait
  simp only
  split <;> simp

theorem RegistryOK_Wait {s s' : WorkerPool} (h : RegistryOK s) (hr : Wait s = .done s') :
    RegistryOK s' := by
  have hp := Wait_eq s
  rw [hr] at hp
  simp only [Outcome.pool] at hp
  subst hp
  constructor
  · exact h.keys_nodup
  · exact h.id_eq
  · exact h.quit_lt
  · exact h.quit_open
  · exact h.quit_nodup
  · have := List.length_filter_le (fun w => !(Worker.canReturn w s)) s.goroutines
    have := h.wg_eq
    simp only
    omega
  · intro g hg
    exact h.gor_lt g (List.mem_filter.1 hg).1

theorem RegistryOK_Shutdown {choice : List Int} {s s' : WorkerPool} (h : RegistryOK s)
    (hr : Shutdown choice s = .done s') : RegistryOK s' := by
  unfold Shutdown at hr
  cases h1 : Shutdown_range s (rangeOrder choice (mapKeys s.workers)) with
  | done s1 =>
    have ok1 := RegistryOK_Shutdown_range h h1
    simp only [h1] at hr
    cases h2 : Wait s1 with
    | done s2 =>
      have ok2 := RegistryOK_Wait ok1 h2
      simp only [h2] at hr
      cases hr
      exact ⟨ok2.keys_nodup, ok2.id_eq, ok2.quit_lt, ok2.quit_open, ok2.quit_nodup, ok2.wg_eq,
        ok2.gor_lt⟩
    | panic p s2 => simp [h2] at hr
    | blocked s2 => simp [h2] at hr
  | panic p s1 => simp [h1] at hr
  | blocked s1 => simp [h1] at hr

theorem Shutdown_not_closeOfClosed {choice : List Int} {s s' : WorkerPool} (h : RegistryOK s) :
    Shutdown choice s ≠ .panic .closeOfClosedChannel s' := by
  unfold Shutdown
  cases h1 : Shutdown_range s (rangeOrder choice (mapKeys s.workers)) with
  | done s1 =>
    simp only
    cases h2 : Wait s1 with
    | done s2 => simp
    | panic p s2 => exact absurd h2 (Wait_not_panic _ _ _)
    | blocked s2 => simp
  | panic p s1 =>
    simp only
    rw [← h1]
    exact Shutdown_range_not_closeOfClosed h
  | blocked s1 => simp

theorem RegistryOK_step {c : Cmd} {s s' : WorkerPool} (h : RegistryOK s)
    (hr : step s c = .done s') : RegistryOK s' := by
  cases c with
  | add => simp only [step, Outcome.done.injEq] at hr; subst hr; exact RegistryOK_AddWorker h
  | remove id => exact RegistryOK_RemoveWorker h hr
  | shutdown choice => exact RegistryOK_Shutdown h hr

theorem step_not_closeOfClosed {c : Cmd} {s s' : WorkerPool} (h : RegistryOK s) :
    step s c ≠ .panic .closeOfClosedChannel s' := by
  cases c with
  | add => simp [step]
  | remove id => exact RemoveWorker_not_closeOfClosed h id
  | shutdown choice => exact Shutdown_not_closeOfClosed h

theorem RegistryOK_exec {cmds : List Cmd} {s s' : WorkerPool} (h : RegistryOK s)
    (hr : exec s cmds = .done s') : RegistryOK s' := by
  induction cmds generalizing s with
  | nil => simp only [exec] at hr; cases hr; exact h
  | cons c cs ih =>
    cases h1 : step s c with
    | done s1 =>
      simp only [exec, h1] at hr
      exact ih (RegistryOK_step h h1) hr
    | panic p s1 => simp [exec, h1] at hr
    | blocked s1 => simp [exec, h1] at hr

theorem exec_not_closeOfClosed {cmds : List Cmd} {s s' : WorkerPool} (h : RegistryOK s) :
    exec s cmds ≠ .panic .closeOfClosedChannel s' := by
  induction cmds generalizing s with
  | nil => simp [exec]
  | cons c cs ih =>
    cases h1 : step s c with
    | done s1 =>
      simp only [exec, h1]
      exact ih (RegistryOK_step h h1)
    | panic p s1 =>
      simp only [exec, h1]
      rw [← h1]
      exact step_not_closeOfClosed h
    | blocked s1 => simp [exec, h1]


/-! ## Consistency of the identifier allocator is preserved -/

theorem wrapInt_of_lt {x : Int} (h1 : 1 ≤ x) (h2 : x < maxInt) : wrapInt (x + 1) = x + 1 := by
  unfold wrapInt
  unfold maxInt at h2
  omega

theorem AllocOK_NewWorkerPool : AllocOK NewWorkerPool := by
  constructor <;> simp [NewWorkerPool, mapKeys]

theorem AddWorker_ID_fresh {s : WorkerPool} (h : AllocOK s) :
    AddWorker_ID s ∉ mapKeys s.workers := by
  cases ha : s.availableIDs with
  | nil =>
    have hid : AddWorker_ID s = s.nextID := by simp [AddWorker_ID, ha]
    rw [hid]
    intro hk
    have := (h.key_range _ hk).2
    omega
  | cons k rest =>
    have hid : AddWorker_ID s = k := by simp [AddWorker_ID, ha]
    rw [hid]
    exact h.disjoint k (by rw [ha]; exact List.mem_cons_self _ _)

theorem AddWorker_ID_range {s : WorkerPool} (h : AllocOK s) :
    1 ≤ AddWorker_ID s ∧ AddWorker_ID s ≤ s.nextID := by
  cases ha : s.availableIDs with
  | nil =>
    have hid : AddWorker_ID s = s.nextID := by simp [AddWorker_ID, ha]
    rw [hid]
    exact ⟨h.next_pos, le_refl _⟩
  | cons k rest =>
    have hid : AddWorker_ID s = k := by simp [AddWorker_ID, ha]
    rw [hid]
    have := h.avail_range k (by rw [ha]; exact List.mem_cons_self _ _)
    omega

theorem AddWorker_nextID {s : WorkerPool} (h : AllocOK s) (hb : s.nextID < maxInt) :
    s.nextID ≤ (AddWorker s).nextID ∧ (AddWorker s).nextID ≤ s.nextID + 1 ∧
      (s.availableIDs = [] → (AddWorker s).nextID = s.nextID + 1) := by
  rw [AddWorker_eq]
  simp only
  by_cases ha : s.availableIDs = []
  · simp [ha, wrapInt_of_lt h.next_pos hb]
  · simp [ha]

theorem AllocOK_AddWorker {s : WorkerPool} (h : AllocOK s)
    (hb : s.nextID < maxInt) : AllocOK (AddWorker s) := by
  have hfresh := AddWorker_ID_fresh h
  have hrange := AddWorker_ID_range h
  have hnext := AddWorker_nextID h hb
  have hidlt : s.availableIDs = [] → AddWorker_ID s = s.nextID := by
    intro ha
    simp [AddWorker_ID, ha]
  rw [AddWorker_eq] at hnext ⊢
  simp only at hnext
  constructor
  · simp only
    have := h.next_pos
    omega
  · intro k hk
    simp only [mapKeys_mapInsert, List.mem_append, List.mem_filter, List.mem_singleton] at hk
    simp only
    rcases hk with ⟨hk, _⟩ | rfl
    · have := h.key_range k hk
      omega
    · by_cases ha : s.availableIDs = []
      · have := hnext.2.2 ha
        have := hidlt ha
        omega
      · obtain ⟨k', rest, ha'⟩ := List.exists_cons_of_ne_nil ha
        have hk' : AddWorker_ID s = k' := by simp [AddWorker_ID, ha']
        have := h.avail_range k' (by rw [ha']; exact List.mem_cons_self _ _)
        omega
  · intro k hk
    simp only at hk ⊢
    have := h.avail_range k (List.mem_of_mem_tail hk)
    omega
  · exact h.avail_nodup.sublist (List.tail_sublist _)
  · intro k hk
    simp only at hk
    simp only [mapKeys_mapInsert, List.mem_append, List.mem_filter, List.mem_singleton, not_or]
    refine ⟨fun hc => h.disjoint k (List.mem_of_mem_tail hk) hc.1, ?_⟩
    intro hkid
    cases ha : s.availableIDs with
    | nil => rw [ha] at hk; simp at hk
    | cons k' rest =>
      have hn := h.avail_nodup
      rw [ha] at hk hn
      simp only [List.tail_cons] at hk
      have hk' : AddWorker_ID s = k' := by simp [AddWorker_ID, ha]
      rw [hkid, hk'] at hk
      exact (List.nodup_cons.1 hn).1 hk
  · intro g hg hopen
    simp only [isClosed, getElem?_append_false] at hopen
    simp only at hg
    rcases List.mem_append.1 hg with hg | hg
    · obtain ⟨e, he, heq⟩ := h.gor_open g hg hopen
      refine ⟨e, mem_mapInsert.2 (Or.inl ⟨he, ?_⟩), heq⟩
      intro hk
      exact hfresh (hk ▸ List.mem_map_of_mem Prod.fst he)
    · simp only [List.mem_singleton] at hg
      subst hg
      exact ⟨_, mem_mapInsert.2 (Or.inr rfl), rfl⟩

theorem AllocOK_remove {s : WorkerPool} (hr : RegistryOK s) (h : AllocOK s) {id : Int}
    {w : Worker} (hw : mapLookup id s.workers = some w) :
    AllocOK { s with
        workers := mapDelete id s.workers
        availableIDs := s.availableIDs ++ [id]
        chans := s.chans.set w.quit true
        output := s.output ++ ["Воркер " ++ toString w.id ++ " остановлен\n"]
        stdout := s.stdout ++ ["Воркер " ++ toString w.id ++ " остановлен\n"] } := by
  have hmem := mem_of_mapLookup hw
  have hkey := mem_mapKeys_of_mapLookup hw
  constructor
  · exact h.next_pos
  · intro k hk
    simp only [mapKeys_mapDelete, List.mem_filter] at hk
    exact h.key_range k hk.1
  · intro k hk
    simp only [List.mem_append, List.mem_singleton] at hk
    rcases hk with hk | rfl
    · exact h.avail_range k hk
    · exact h.key_range k hkey
  · simp only
    refine List.Nodup.append h.avail_nodup (List.nodup_singleton _) ?_
    intro k h1 h2
    simp only [List.mem_singleton] at h2
    subst h2
    exact h.disjoint k h1 hkey
  · intro k hk
    simp only [List.mem_append, List.mem_singleton] at hk
    simp only [mapKeys_mapDelete, List.mem_filter, not_and]
    rcases hk with hk | rfl
    · intro hc
      exact absurd hc (h.disjoint k hk)
    · intro _
      simp
  · intro g hg hopen
    simp only [isClosed, getElem?_set_true] at hopen
    have hlt := hr.quit_lt _ hmem
    simp only at hlt
    by_cases hq : g.quit = w.quit
    · simp [hq, hlt] at hopen
    · simp only [hq, false_and, if_false] at hopen
      obtain ⟨e, he, heq⟩ := h.gor_open g hg hopen
      refine ⟨e, mem_mapDelete.2 ⟨he, ?_⟩, heq⟩
      intro hk
      have : mapLookup id s.workers = some e.2 :=
        mapLookup_of_mem hr.keys_nodup (by rw [← hk]; exact he)
      rw [hw] at this
      cases this
      exact hq heq.symm

theorem AllocOK_RemoveWorker {s s' : WorkerPool} (hr : RegistryOK s) (h : AllocOK s) {id : Int}
    (he : RemoveWorker s id = .done s') : AllocOK s' ∧ s'.nextID = s.nextID := by
  cases hw : mapLookup id s.workers with
  | none => rw [RemoveWorker_of_absent s id hw] at he; cases he
  | some w =>
    rw [RemoveWorker_registered hr hw] at he
    cases he
    exact ⟨AllocOK_remove hr h hw, rfl⟩

theorem AllocOK_Shutdown_range {ids : List Int} {s s' : WorkerPool} (hr : RegistryOK s)
    (h : AllocOK s) (he : Shutdown_range s ids = .done s') :
    AllocOK s' ∧ s'.nextID = s.nextID := by
  induction ids generalizing s with
  | nil => simp only [Shutdown_range] at he; cases he; exact ⟨h, rfl⟩
  | cons id ids ih =>
    cases h1 : RemoveWorker s id with
    | done s1 =>
      simp only [Shutdown_range, h1] at he
      have a1 := AllocOK_RemoveWorker hr h h1
      have a2 := ih (RegistryOK_RemoveWorker hr h1) a1.1 he
      exact ⟨a2.1, a2.2.trans a1.2⟩
    | panic p s1 => simp [Shutdown_range, h1] at he
    | blocked s1 => simp [Shutdown_range, h1] at he

theorem AllocOK_Wait {s s' : WorkerPool} (h : AllocOK s) (he : Wait s = .done s') :
    AllocOK s' ∧ s'.nextID = s.nextID := by
  have hp := Wait_eq s
  rw [he] at hp
  simp only [Outcome.pool] at hp
  subst hp
  refine ⟨⟨h.next_pos, h.key_range, h.avail_range, h.avail_nodup, h.disjoint, ?_⟩, rfl⟩
  intro g hg hopen
  exact h.gor_open g (List.mem_filter.1 hg).1 hopen

theorem AllocOK_Shutdown {choice : List Int} {s s' : WorkerPool} (hr : RegistryOK s)
    (h : AllocOK s) (he : Shutdown choice s = .done s') :
    AllocOK s' ∧ s'.nextID = s.nextID := by
  unfold Shutdown at he
  cases h1 : Shutdown_range s (rangeOrder choice (mapKeys s.workers)) with
  | done s1 =>
    have a1 := AllocOK_Shutdown_range hr h h1
    simp only [h1] at he
    cases h2 : Wait s1 with
    | done s2 =>
      have a2 := AllocOK_Wait a1.1 h2
      simp only [h2] at he
      cases he
      exact ⟨⟨a2.1.next_pos, a2.1.key_range, a2.1.avail_range, a2.1.avail_nodup,
        a2.1.disjoint, a2.1.gor_open⟩, a2.2.trans a1.2⟩
    | panic p s2 => simp [h2] at he
    | blocked s2 => simp [h2] at he
  | panic p s1 => simp [h1] at he
  | blocked s1 => simp [h1] at he

theorem AllocOK_step {c : Cmd} {s s' : WorkerPool} (hr : RegistryOK s) (h : AllocOK s)
    (hb : s.nextID < maxInt) (he : step s c = .done s') :
    AllocOK s' ∧ s'.nextID ≤ s.nextID + 1 := by
  cases c with
  | add =>
    simp only [step, Outcome.done.injEq] at he
    subst he
    exact ⟨AllocOK_AddWorker h hb, (AddWorker_nextID h hb).2.1⟩
  | remove id =>
    have := AllocOK_RemoveWorker hr h he
    exact ⟨this.1, by rw [this.2]; omega⟩
  | shutdown choice =>
    have := AllocOK_Shutdown hr h he
    exact ⟨this.1, by rw [this.2]; omega⟩

theorem AllocOK_exec_from {cmds : List Cmd} {s s' : WorkerPool} (n : Nat) (hr : RegistryOK s)
    (h : AllocOK s) (hn : s.nextID ≤ n + 1) (hb : (n : Int) + cmds.length < maxInt)
    (he : exec s cmds = .done s') :
    AllocOK s' ∧ s'.nextID ≤ n + cmds.length + 1 := by
  induction cmds generalizing s n with
  | nil =>
    simp only [exec] at he
    cases he
    exact ⟨h, by simpa using hn⟩
  | cons c cs ih =>
    simp only [List.length_cons, Nat.cast_add, Nat.cast_one] at hb ⊢
    cases h1 : step s c with
    | done s1 =>
      simp only [exec, h1] at he
      have hlt : s.nextID < maxInt := by
        have : (0 : Int) ≤ (cs.length : Int) := Int.ofNat_nonneg _
        omega
      have a1 := AllocOK_step hr h hlt h1
      have := ih (n + 1) (RegistryOK_step hr h1) a1.1
        (by push_cast; omega) (by push_cast; omega) he
      refine ⟨this.1, ?_⟩
      have h2 := this.2
      push_cast at h2
      omega
    | panic p s1 => simp [exec, h1] at he
    | blocked s1 => simp [exec, h1] at he

/-- Every state reached from a fresh pool by fewer than `2^63 - 1` calls is well formed. -/
theorem exec_invariants {cmds : List Cmd} {s : WorkerPool} (hb : (cmds.length : Int) < maxInt)
    (he : exec NewWorkerPool cmds = .done s) : RegistryOK s ∧ AllocOK s := by
  refine ⟨RegistryOK_exec RegistryOK_NewWorkerPool he, ?_⟩
  have := AllocOK_exec_from 0 RegistryOK_NewWorkerPool AllocOK_NewWorkerPool
    (by simp [NewWorkerPool]) (by simpa using hb) he
  exact this.1


/-! ## Shutdown -/

theorem Shutdown_range_registered {ids : List Int} {s : WorkerPool} (hr : RegistryOK s)
    (hn : ids.Nodup) (hk : ∀ id ∈ ids, id ∈ mapKeys s.workers) :
    ∃ s', Shutdown_range s ids = .done s' ∧
      mapKeys s'.workers = (mapKeys s.workers).filter (fun k => !decide (k ∈ ids)) ∧
      s'.availableIDs = s.availableIDs ++ ids ∧ s'.nextID = s.nextID ∧ s'.wg = s.wg ∧
      s'.goroutines = s.goroutines ∧ s'.jobs = s.jobs := by
  induction ids generalizing s with
  | nil => exact ⟨s, rfl, by simp, by simp, rfl, rfl, rfl, rfl⟩
  | cons id ids ih =>
    obtain ⟨hid, hn'⟩ := List.nodup_cons.1 hn
    have hmem := hk id (List.mem_cons_self _ _)
    cases hw : mapLookup id s.workers with
    | none => exact absurd hmem ((mapLookup_eq_none_iff id s.workers).1 hw)
    | some w =>
      have h1 := RemoveWorker_registered hr hw
      have ok1 := RegistryOK_remove hr hw
      have hk1 : ∀ id' ∈ ids, id' ∈ mapKeys (mapDelete id s.workers) := by
        intro id' hid'
        rw [mapKeys_mapDelete]
        refine List.mem_filter.2 ⟨hk id' (List.mem_cons_of_mem _ hid'), ?_⟩
        have : id' ≠ id := fun e => hid (e ▸ hid')
        simpa using this
      obtain ⟨s', e1, e2, e3, e4, e5, e6, e7⟩ := ih ok1 hn' hk1
      refine ⟨s', ?_, ?_, ?_, e4, e5, e6, e7⟩
      · simp only [Shutdown_range, h1]
        exact e1
      · rw [e2]
        simp only [mapKeys_mapDelete, List.filter_filter]
        apply List.filter_congr
        intro k _
        simp only [List.mem_cons, not_or, Bool.decide_or, Bool.not_or]
        exact Bool.and_comm _ _
      · rw [e3]
        simp

theorem Wait_of_no_open {s : WorkerPool} (hr : RegistryOK s)
    (hc : ∀ g ∈ s.goroutines, isClosed s g.quit = true) :
    Wait s = .done { s with goroutines := [], wg := 0 } := by
  have hstay : s.goroutines.filter (fun w => !(w.canReturn s)) = [] := by
    apply List.filter_eq_nil_iff.2
    intro g hg
    simp [Worker.canReturn, hc g hg]
  unfold Wait
  simp only [hstay, List.length_nil, Nat.sub_zero, hr.wg_eq, Nat.sub_self, if_true]

theorem Shutdown_returns (choice : List Int) {s : WorkerPool} (hr : RegistryOK s)
    (ha : AllocOK s) :
    ∃ s1, Shutdown choice s = .done s1 ∧ s1.workers = [] ∧
      s1.availableIDs = s.availableIDs ++ rangeOrder choice (mapKeys s.workers) ∧
      s1.nextID = s.nextID ∧ s1.wg = 0 ∧ s1.goroutines = [] ∧
      (∀ g ∈ s.goroutines, isClosed s1 g.quit = true) := by
  obtain ⟨s', e1, e2, e3, e4, _, e6, _⟩ :=
    Shutdown_range_registered hr (rangeOrder_nodup choice _ hr.keys_nodup)
      (fun id hid => (mem_rangeOrder choice _ id).1 hid)
  have hw : s'.workers = [] := by
    have : mapKeys s'.workers = [] := by
      rw [e2]
      apply List.filter_eq_nil_iff.2
      intro k hk
      simpa using (mem_rangeOrder choice _ k).2 hk
    simpa [mapKeys] using this
  have ok' := RegistryOK_Shutdown_range hr e1
  have al' := (AllocOK_Shutdown_range hr ha e1).1
  have hclosed : ∀ g ∈ s'.goroutines, isClosed s' g.quit = true := by
    intro g hg
    cases hc : isClosed s' g.quit with
    | true => rfl
    | false =>
      obtain ⟨e, he, _⟩ := al'.gor_open g hg hc
      rw [hw] at he
      cases he
  have hwait := Wait_of_no_open ok' hclosed
  have hs : Shutdown choice s = .done { s' with
      goroutines := []
      wg := 0
      logger := s'.logger ++ ["Worker pool завершил работу!"]
      stdout := s'.stdout ++ ["Worker pool завершил работу!\n"] } := by
    simp only [Shutdown, e1, hwait]
  refine ⟨_, hs, ?_, ?_, ?_, ?_, ?_, ?_⟩
  · exact hw
  · exact e3
  · exact e4
  · rfl
  · rfl
  · intro g hg
    exact hclosed g (e6 ▸ hg)

theorem Shutdown_of_empty {choice : List Int} {s : WorkerPool} (hw : s.workers = [])
    (hg : s.goroutines = []) (h0 : s.wg = 0) :
    Shutdown choice s = .done { s with
      logger := s.logger ++ ["Worker pool завершил работу!"]
      stdout := s.stdout ++ ["Worker pool завершил работу!\n"] } := by
  have hwait : Wait s = .done s := by
    unfold Wait
    simp only [hg, h0, List.filter_nil, List.length_nil, Nat.sub_self, if_true]
    cases s
    simp only at hg h0
    subst hg h0
    rfl
  simp [Shutdown, hw, mapKeys, rangeOrder, Shutdown_range, hwait]


/-! ## Runes -/

theorem decodeRune_width_pos (bs : List Nat) : 1 ≤ (decodeRune bs).2 := by
  unfold decodeRune
  split
  · simp
  · split_ifs <;> (try simp) <;> split <;> (try simp) <;> split_ifs <;> simp

theorem isScalar_toNat (c : Char) : isScalar c.toNat := c.valid

theorem decodeRune_encodeRune (n : Nat) (rest : List Nat) (h : isScalar n) :
    decodeRune (encodeRune n ++ rest) = (n, (encodeRune n).length) := by
  unfold isScalar at h
  unfold encodeRune
  split_ifs with h1 h2 h3 h4
  · simp [decodeRune, h1]
  · have a1 : ¬ (0xC0 + n / 64 < 0x80) := by omega
    have a2 : 0xC0 ≤ 0xC0 + n / 64 ∧ 0xC0 + n / 64 < 0xE0 := by omega
    have a3 : isCont (0x80 + n % 64) = true := by simp [isCont]; omega
    have a4 : (0xC0 + n / 64) % 32 * 64 + (0x80 + n % 64) % 64 = n := by omega
    have a5 : 0x7F < n := by omega
    simp only [decodeRune, List.cons_append, List.nil_append, a1, a2, a3, a4, a5, if_false,
      if_true, and_self, List.length_cons, List.length_nil]
  · omega
  · have a1 : ¬ (0xE0 + n / 4096 < 0x80) := by omega
    have a2 : ¬ (0xC0 ≤ 0xE0 + n / 4096 ∧ 0xE0 + n / 4096 < 0xE0) := by omega
    have a2' : 0xE0 ≤ 0xE0 + n / 4096 ∧ 0xE0 + n / 4096 < 0xF0 := by omega
    have a3 : isCont (0x80 + n / 64 % 64) = true := by simp [isCont]; omega
    have a3' : isCont (0x80 + n % 64) = true := by simp [isCont]; omega
    have a4 : (0xE0 + n / 4096) % 16 * 4096 + (0x80 + n / 64 % 64) % 64 * 64 +
        (0x80 + n % 64) % 64 = n := by omega
    have a5 : 0x7FF < n ∧ ¬ (0xD800 ≤ n ∧ n ≤ 0xDFFF) := by omega
    simp only [decodeRune, List.cons_append, List.nil_append, a1, a2, a2', a3, a3', a4, a5,
      if_false, if_true, and_self, List.length_cons, List.length_nil, not_false_eq_true]
  · have a1 : ¬ (0xF0 + n / 262144 < 0x80) := by omega
    have a2 : ¬ (0xC0 ≤ 0xF0 + n / 262144 ∧ 0xF0 + n / 262144 < 0xE0) := by omega
    have a2' : ¬ (0xE0 ≤ 0xF0 + n / 262144 ∧ 0xF0 + n / 262144 < 0xF0) := by omega
    have a2'' : 0xF0 ≤ 0xF0 + n / 262144 ∧ 0xF0 + n / 262144 < 0xF8 := by omega
    have a3 : isCont (0x80 + n / 4096 % 64) = true := by simp [isCont]; omega
    have a3' : isCont (0x80 + n / 64 % 64) = true := by simp [isCont]; omega
    have a3'' : isCont (0x80 + n % 64) = true := by simp [isCont]; omega
    have a4 : (0xF0 + n / 262144) % 8 * 262144 + (0x80 + n / 4096 % 64) % 64 * 4096 +
        (0x80 + n / 64 % 64) % 64 * 64 + (0x80 + n % 64) % 64 = n := by omega
    have a5 : 0xFFFF < n ∧ n ≤ 0x10FFFF := by omega
    simp only [decodeRune, List.cons_append, List.nil_append, a1, a2, a2', a2'', a3, a3', a3'',
      a4, a5, if_false, if_true, and_self, List.length_cons, List.length_nil]

theorem encodeRune_ne_nil (n : Nat) : encodeRune n ≠ [] := by
  unfold encodeRune
  split_ifs <;> simp


/-! ## The transliteration loop -/

theorem some_func_loop_eq (fuel : Nat) (bs output : List Nat) :
    some_func_loop fuel bs output = output ++ (runes_loop fuel bs).flatMap translitStep := by
  induction fuel generalizing bs output with
  | zero => simp [some_func_loop, runes_loop]
  | succ fuel ih =>
    cases bs with
    | nil => simp [some_func_loop, runes_loop]
    | cons b bs =>
      simp only [some_func_loop, runes_loop, ih, List.flatMap_cons, List.append_assoc]

/-- One more iteration than the number of bytes changes nothing: the loop has consumed
its input by then. -/
theorem runes_loop_succ (fuel : Nat) (bs : List Nat) (h : bs.length ≤ fuel) :
    runes_loop (fuel + 1) bs = runes_loop fuel bs := by
  induction fuel generalizing bs with
  | zero =>
    have : bs = [] := List.length_eq_zero.1 (Nat.le_zero.1 h)
    subst this
    simp [runes_loop]
  | succ fuel ih =>
    cases bs with
    | nil => simp [runes_loop]
    | cons b bs =>
      have hw := decodeRune_width_pos (b :: bs)
      have hlen : ((b :: bs).drop (decodeRune (b :: bs)).2).length ≤ fuel := by
        simp only [List.length_drop, List.length_cons] at h ⊢
        omega
      simp only [runes_loop]
      rw [ih _ hlen]

theorem runes_loop_of_le (fuel : Nat) (bs : List Nat) (h : bs.length ≤ fuel) :
    runes_loop fuel bs = runes bs := by
  induction fuel with
  | zero =>
    have : bs = [] := List.length_eq_zero.1 (Nat.le_zero.1 h)
    subst this
    rfl
  | succ fuel ih =>
    by_cases hl : bs.length ≤ fuel
    · rw [runes_loop_succ fuel bs hl]
      exact ih hl
    · have : bs.length = fuel + 1 := by omega
      rw [← this]
      rfl

theorem some_func_eq (input : List Nat) :
    some_func input = (runes input).flatMap translitStep := by
  simp [some_func, some_func_loop_eq, runes]

/-- More iterations than `input.length` do not change the result of the loop. -/
theorem some_func_loop_of_le (fuel : Nat) (input : List Nat) (h : input.length ≤ fuel) :
    some_func_loop fuel input [] = some_func input := by
  rw [some_func_eq, some_func_loop_eq, runes_loop_of_le fuel input h, List.nil_append]

theorem runes_encodeRune_append (n : Nat) (rest : List Nat) (h : isScalar n) :
    runes (encodeRune n ++ rest) = n :: runes rest := by
  have hd := decodeRune_encodeRune n rest h
  cases he : encodeRune n with
  | nil => exact absurd he (encodeRune_ne_nil n)
  | cons b bs =>
    rw [he] at hd
    unfold runes
    simp only [List.cons_append, List.length_cons, runes_loop, List.append_eq] at hd ⊢
    rw [hd]
    simp only [List.length_cons]
    have : List.drop (bs.length + 1) (b :: (bs ++ rest)) = rest := by
      simp
    rw [this]
    congr 1
    exact runes_loop_of_le _ _ (by simp)

theorem runes_utf8 (cs : List Char) : runes (utf8 cs) = cs.map Char.toNat := by
  induction cs with
  | nil => rfl
  | cons c cs ih =>
    have : utf8 (c :: cs) = encodeRune c.toNat ++ utf8 cs := by simp [utf8]
    rw [this, runes_encodeRune_append _ _ (isScalar_toNat c), ih]
    rfl


/-! ## The pool: statements of the specification -/

/-- C1 (identifier uniqueness).  In every state reached from a fresh pool by a sequence of
calls of length below `2^63 - 1` (so that `nextID++` has not wrapped), the identifier the
next AddWorker call picks is not a key of the registry; hence the call overwrites no entry,
it registers its worker under that identifier, and the registered workers carry pairwise
distinct identifiers (one entry per key, each worker stored under its own `id`). -/
theorem identifier_uniqueness (cmds : List Cmd) (s : WorkerPool)
    (hb : (cmds.length : Int) < maxInt) (he : exec NewWorkerPool cmds = .done s) :
    mapLookup (AddWorker_ID s) s.workers = none ∧
    (∀ k w, mapLookup k s.workers = some w → mapLookup k (AddWorker s).workers = some w) ∧
    (mapLookup (AddWorker_ID s) (AddWorker s).workers).map Worker.id = some (AddWorker_ID s) ∧
    (mapKeys s.workers).Nodup ∧
    (s.workers.map (fun e => e.2.id)).Nodup := by
  obtain ⟨hr, ha⟩ := exec_invariants hb he
  have hfresh := AddWorker_ID_fresh ha
  refine ⟨(mapLookup_eq_none_iff _ _).2 hfresh, ?_, ?_, hr.keys_nodup, ?_⟩
  · intro k w hw
    rw [AddWorker_eq]
    have hne : k ≠ AddWorker_ID s := fun e => hfresh (e ▸ mem_mapKeys_of_mapLookup hw)
    simp only [mapLookup_mapInsert_of_ne _ _ hne, hw]
  · rw [AddWorker_eq]
    simp only [mapLookup_mapInsert_self, Option.map_some']
  · have : s.workers.map (fun e => e.2.id) = mapKeys s.workers := by
      unfold mapKeys
      exact List.map_congr_left (fun e he => hr.id_eq e he)
    rw [this]
    exact hr.keys_nodup

/-- Witness of C1: three workers, worker 2 removed. -/
theorem identifier_uniqueness_witness :
    mapLookup (AddWorker_ID (exec NewWorkerPool [.add, .add, .add, .remove 2]).pool)
        (exec NewWorkerPool [.add, .add, .add, .remove 2]).pool.workers = none ∧
    mapKeys (exec NewWorkerPool [.add, .add, .add, .remove 2]).pool.workers = [1, 3] :=
  ⟨(identifier_uniqueness [.add, .add, .add, .remove 2]
      (exec NewWorkerPool [.add, .add, .add, .remove 2]).pool (by decide) (by decide)).1,
    by decide⟩

/-- C2 (unknown-removal safety) fails on the code.  With worker 1 registered,
`RemoveWorker(7)` writes the "not found" line to the log and then panics on the nil pointer
dereference `worker.id`: the call does not complete normally, and neither does the
operator's command 3 with the identifier 7, nor any call after it. -/
theorem unknown_removal_aborts :
    mapLookup 7 (AddWorker NewWorkerPool).workers = none ∧
    RemoveWorker (AddWorker NewWorkerPool) 7 =
      .panic .nilDereference { AddWorker NewWorkerPool with
        logger := (AddWorker NewWorkerPool).logger ++ ["Воркер с ID 7 не найден\n"] } ∧
    main_case3 (AddWorker NewWorkerPool) 7 =
      .panic .nilDereference (main_case3 (AddWorker NewWorkerPool) 7).pool ∧
    exec NewWorkerPool [.add, .remove 7, .add] =
      .panic .nilDereference (RemoveWorker (AddWorker NewWorkerPool) 7).pool := by
  decide

/-- C3 (identifier reuse).  In a pool whose released pool is exactly `[K]`, AddWorker picks
`K`, registers the new worker under `K`, empties the released pool and leaves `nextID`
unchanged. -/
theorem identifier_reuse (s : WorkerPool) (K : Int) (h : s.availableIDs = [K]) :
    AddWorker_ID s = K ∧
    (mapLookup K (AddWorker s).workers).map Worker.id = some K ∧
    (AddWorker s).availableIDs = [] ∧
    (AddWorker s).nextID = s.nextID := by
  have hid : AddWorker_ID s = K := by simp [AddWorker_ID, h]
  rw [AddWorker_eq, hid]
  simp [mapLookup_mapInsert_self, h]

/-- Witness of C3, the scenario of the specification: three workers get 1, 2, 3; after
removing 2 the released pool is `[2]`; the next worker gets 2 and the registry holds
exactly the keys 1, 2, 3. -/
theorem identifier_reuse_witness :
    mapKeys (exec NewWorkerPool [.add, .add, .add]).pool.workers = [1, 2, 3] ∧
    exec NewWorkerPool [.add, .add, .add, .remove 2, .add] =
      .done (AddWorker (exec NewWorkerPool [.add, .add, .add, .remove 2]).pool) ∧
    (∀ k, k ∈ mapKeys (AddWorker (exec NewWorkerPool [.add, .add, .add, .remove 2]).pool).workers
      ↔ k = 1 ∨ k = 2 ∨ k = 3) ∧
    (AddWorker_ID (exec NewWorkerPool [.add, .add, .add, .remove 2]).pool = 2 ∧
     (mapLookup 2 (AddWorker (exec NewWorkerPool [.add, .add, .add, .remove 2]).pool).workers).map
        Worker.id = some 2 ∧
     (AddWorker (exec NewWorkerPool [.add, .add, .add, .remove 2]).pool).availableIDs = [] ∧
     (AddWorker (exec NewWorkerPool [.add, .add, .add, .remove 2]).pool).nextID =
        (exec NewWorkerPool [.add, .add, .add, .remove 2]).pool.nextID) :=
  ⟨by decide, by decide,
    by
      have h : mapKeys (AddWorker
          (exec NewWorkerPool [.add, .add, .add, .remove 2]).pool).workers = [1, 3, 2] := by
        decide
      intro k
      rw [h]
      simp only [List.mem_cons, List.mem_singleton, List.not_mem_nil, or_false]
      tauto,
    identifier_reuse (exec NewWorkerPool [.add, .add, .add, .remove 2]).pool 2 (by decide)⟩

/-- C4 (idempotent shutdown).  In every state reached from a fresh pool by fewer than
`2^63 - 1` calls, Shutdown returns with an empty registry, every goroutine that was in
its loop signalled (its `quit` closed) and returned, and the WaitGroup at zero; a second
Shutdown right after it returns too and changes neither the registry, the released pool,
`nextID`, the WaitGroup, the channels, the goroutines nor the output file (no worker is
stopped or counted again). -/
theorem idempotent_shutdown (cmds : List Cmd) (s : WorkerPool) (c1 c2 : List Int)
    (hb : (cmds.length : Int) < maxInt) (he : exec NewWorkerPool cmds = .done s) :
    ∃ s1 s2, Shutdown c1 s = .done s1 ∧
      s1.workers = [] ∧ s1.wg = 0 ∧ s1.goroutines = [] ∧
      (∀ g ∈ s.goroutines, isClosed s1 g.quit = true) ∧
      Shutdown c2 s1 = .done s2 ∧
      s2.workers = s1.workers ∧ s2.availableIDs = s1.availableIDs ∧ s2.nextID = s1.nextID ∧
      s2.wg = s1.wg ∧ s2.chans = s1.chans ∧ s2.goroutines = s1.goroutines ∧
      s2.jobs = s1.jobs ∧ s2.output = s1.output := by
  obtain ⟨hr, ha⟩ := exec_invariants hb he
  obtain ⟨s1, e1, hw, _, _, h0, hg, hc⟩ := Shutdown_returns c1 hr ha
  exact ⟨s1, _, e1, hw, h0, hg, hc, Shutdown_of_empty hw hg h0, rfl, rfl, rfl, rfl, rfl, rfl,
    rfl, rfl⟩

/-- Witness of C4: three workers, worker 2 removed, then two shutdowns. -/
theorem idempotent_shutdown_witness :
    ∃ s1 s2, Shutdown [3] (exec NewWorkerPool [.add, .add, .add, .remove 2]).pool = .done s1 ∧
      s1.workers = [] ∧ s1.wg = 0 ∧ s1.goroutines = [] ∧
      (∀ g ∈ (exec NewWorkerPool [.add, .add, .add, .remove 2]).pool.goroutines,
        isClosed s1 g.quit = true) ∧
      Shutdown [] s1 = .done s2 ∧
      s2.workers = s1.workers ∧ s2.availableIDs = s1.availableIDs ∧ s2.nextID = s1.nextID ∧
      s2.wg = s1.wg ∧ s2.chans = s1.chans ∧ s2.goroutines = s1.goroutines ∧
      s2.jobs = s1.jobs ∧ s2.output = s1.output :=
  idempotent_shutdown [.add, .add, .add, .remove 2]
    (exec NewWorkerPool [.add, .add, .add, .remove 2]).pool [3] [] (by decide) (by decide)

/-- C5 (released-identifier bounds).  In every state reached from a fresh pool by fewer
than `2^63 - 1` AddWorker, RemoveWorker and Shutdown calls, every released identifier is
non-negative, at least 1 and strictly below `nextID`. -/
theorem released_identifier_bounds (cmds : List Cmd) (s : WorkerPool)
    (hb : (cmds.length : Int) < maxInt) (he : exec NewWorkerPool cmds = .done s) :
    ∀ k ∈ s.availableIDs, 0 ≤ k ∧ 1 ≤ k ∧ k < s.nextID := by
  intro k hk
  have := (exec_invariants hb he).2.avail_range k hk
  omega

/-- Witness of C5: after two workers and a shutdown visiting 2 first, the released pool is
`[2, 1]` and `nextID` is 3. -/
theorem released_identifier_bounds_witness :
    (exec NewWorkerPool [.add, .add, .shutdown [2]]).pool.availableIDs = [2, 1] ∧
    (exec NewWorkerPool [.add, .add, .shutdown [2]]).pool.nextID = 3 ∧
    ∀ k ∈ (exec NewWorkerPool [.add, .add, .shutdown [2]]).pool.availableIDs,
      0 ≤ k ∧ 1 ≤ k ∧ k < (exec NewWorkerPool [.add, .add, .shutdown [2]]).pool.nextID :=
  ⟨by decide, by decide,
    released_identifier_bounds [.add, .add, .shutdown [2]]
      (exec NewWorkerPool [.add, .add, .shutdown [2]]).pool (by decide) (by decide)⟩

/-- C6 (unknown-removal frame).  For every pool state and every identifier that is not a
key of the registry, the pool at the point where `RemoveWorker(id)` stops has the same
registry, released pool, `nextID`, WaitGroup counter, channel states, goroutines and
output file as at entry: no field is written and no `quit` channel is closed. -/
theorem unknown_removal_frame (s : WorkerPool) (id : Int) (h : id ∉ mapKeys s.workers) :
    (RemoveWorker s id).pool.workers = s.workers ∧
    (RemoveWorker s id).pool.availableIDs = s.availableIDs ∧
    (RemoveWorker s id).pool.nextID = s.nextID ∧
    (RemoveWorker s id).pool.wg = s.wg ∧
    (RemoveWorker s id).pool.chans = s.chans ∧
    (RemoveWorker s id).pool.goroutines = s.goroutines ∧
    (RemoveWorker s id).pool.jobs = s.jobs ∧
    (RemoveWorker s id).pool.output = s.output := by
  rw [RemoveWorker_of_absent s id ((mapLookup_eq_none_iff id s.workers).2 h)]
  exact ⟨rfl, rfl, rfl, rfl, rfl, rfl, rfl, rfl⟩

/-- Witness of C6: identifier 7 in a pool whose only worker is 1. -/
theorem unknown_removal_frame_witness :
    (7 : Int) ∉ mapKeys (AddWorker NewWorkerPool).workers ∧
    (RemoveWorker (AddWorker NewWorkerPool) 7).pool.workers = (AddWorker NewWorkerPool).workers ∧
    (RemoveWorker (AddWorker NewWorkerPool) 7).pool.chans = (AddWorker NewWorkerPool).chans :=
  ⟨by decide,
    (unknown_removal_frame (AddWorker NewWorkerPool) 7 (by decide)).1,
    (unknown_removal_frame (AddWorker NewWorkerPool) 7 (by decide)).2.2.2.2.1⟩

/-- C7, as stated, fails: after adding three workers and removing 2 and then 1 the released
pool is `[2, 1]`, and AddWorker picks 2 although 1 is a smaller released identifier. -/
theorem smallest_released_counterexample :
    exec NewWorkerPool [.add, .add, .add, .remove 2, .remove 1] =
      .done (exec NewWorkerPool [.add, .add, .add, .remove 2, .remove 1]).pool ∧
    (exec NewWorkerPool [.add, .add, .add, .remove 2, .remove 1]).pool.availableIDs = [2, 1] ∧
    AddWorker_ID (exec NewWorkerPool [.add, .add, .add, .remove 2, .remove 1]).pool = 2 ∧
    ¬ (∀ k ∈ (exec NewWorkerPool [.add, .add, .add, .remove 2, .remove 1]).pool.availableIDs,
        AddWorker_ID (exec NewWorkerPool [.add, .add, .add, .remove 2, .remove 1]).pool ≤ k) := by
  decide

/-- C7 amended (first-released allocation).  When the released pool is non-empty, AddWorker
picks its first element, registers the new worker under it, drops it from the released
pool and leaves `nextID` unchanged (no new identifier is minted). -/
theorem first_released_allocation (s : WorkerPool) (k : Int) (rest : List Int)
    (h : s.availableIDs = k :: rest) :
    AddWorker_ID s = k ∧
    (mapLookup k (AddWorker s).workers).map Worker.id = some k ∧
    (AddWorker s).availableIDs = rest ∧
    (AddWorker s).nextID = s.nextID := by
  have hid : AddWorker_ID s = k := by simp [AddWorker_ID, h]
  rw [AddWorker_eq, hid]
  simp [mapLookup_mapInsert_self, h]

/-- Witness of the amended C7 at the state of the counterexample. -/
theorem first_released_allocation_witness :
    (exec NewWorkerPool [.add, .add, .add, .remove 2, .remove 1]).pool.availableIDs = [2, 1] ∧
    AddWorker_ID (exec NewWorkerPool [.add, .add, .add, .remove 2, .remove 1]).pool = 2 ∧
    (AddWorker (exec NewWorkerPool [.add, .add, .add, .remove 2, .remove 1]).pool).availableIDs
      = [1] :=
  ⟨by decide,
    (first_released_allocation (exec NewWorkerPool [.add, .add, .add, .remove 2, .remove 1]).pool
      2 [1] (by decide)).1,
    (first_released_allocation (exec NewWorkerPool [.add, .add, .add, .remove 2, .remove 1]).pool
      2 [1] (by decide)).2.2.1⟩

/-- C10 (no double stop).  No sequence of AddWorker, RemoveWorker and Shutdown calls on a
fresh pool ends in a close of a closed channel; and in every state such a sequence reaches,
every registered worker has an open `quit` channel, removing a registered worker returns,
closes that worker's channel and leaves no registered worker owning it, and no further
call panics with a close of a closed channel. -/
theorem no_double_stop (cmds : List Cmd) :
    (∀ s', exec NewWorkerPool cmds ≠ .panic .closeOfClosedChannel s') ∧
    ∀ s, exec NewWorkerPool cmds = .done s →
      (∀ k w, mapLookup k s.workers = some w → isClosed s w.quit = false) ∧
      (∀ k w, mapLookup k s.workers = some w →
        ∃ s', RemoveWorker s k = .done s' ∧ isClosed s' w.quit = true ∧
          mapLookup k s'.workers = none ∧ ∀ e ∈ s'.workers, e.2.quit ≠ w.quit) ∧
      (∀ c s', step s c ≠ .panic .closeOfClosedChannel s') := by
  refine ⟨fun s' => exec_not_closeOfClosed RegistryOK_NewWorkerPool, ?_⟩
  intro s he
  have hr := RegistryOK_exec RegistryOK_NewWorkerPool he
  refine ⟨fun k w hw => hr.quit_open _ (mem_of_mapLookup hw), ?_, fun c s' =>
    step_not_closeOfClosed hr⟩
  intro k w hw
  have hmem := mem_of_mapLookup hw
  have hlt := hr.quit_lt _ hmem
  have hok := RegistryOK_remove hr hw
  have hcl : isClosed { s with
        workers := mapDelete k s.workers
        availableIDs := s.availableIDs ++ [k]
        chans := s.chans.set w.quit true
        output := s.output ++ ["Воркер " ++ toString w.id ++ " остановлен\n"]
        stdout := s.stdout ++ ["Воркер " ++ toString w.id ++ " остановлен\n"] } w.quit = true := by
    simp only [isClosed, getElem?_set_true]
    simp only at hlt
    simp [hlt]
  refine ⟨_, RemoveWorker_registered hr hw, hcl, ?_, ?_⟩
  · rw [mapLookup_eq_none_iff, mapKeys_mapDelete]
    simp
  · intro e he' hq
    have := hok.quit_open e he'
    rw [hq, hcl] at this
    cases this

/-- Witness of C10: two workers, worker 1 removed, a shutdown and a new worker. -/
theorem no_double_stop_witness :
    mapKeys (exec NewWorkerPool [.add, .add, .remove 1, .shutdown [], .add]).pool.workers = [1] ∧
    ∀ k w, mapLookup k
        (exec NewWorkerPool [.add, .add, .remove 1, .shutdown [], .add]).pool.workers = some w →
      isClosed (exec NewWorkerPool [.add, .add, .remove 1, .shutdown [], .add]).pool w.quit
        = false :=
  ⟨by decide,
    ((no_double_stop [.add, .add, .remove 1, .shutdown [], .add]).2
      (exec NewWorkerPool [.add, .add, .remove 1, .shutdown [], .add]).pool (by decide)).1⟩


/-! ## Transliteration: statements of the specification -/

/-- C8, as stated, fails on a string that is not valid UTF-8: for the one-byte string
`"\xff"` the loop sees the single rune U+FFFD, which has no entry in `translitMap`, and
some_func returns the three bytes `EF BF BD` instead of the input. -/
theorem some_func_changes_invalid_utf8 :
    runes [0xFF] = [RuneError] ∧ translitMap RuneError = none ∧
    some_func [0xFF] = [0xEF, 0xBF, 0xBD] ∧ some_func [0xFF] ≠ [0xFF] := by
  decide

/-- C8 amended (transliteration).  For every input string some_func returns the in-order
concatenation of one replacement per rune that `range` yields, the table entry for a rune
in `translitMap` and the rune's UTF-8 encoding otherwise.  For an input that is the UTF-8
encoding of a text `cs` the runes are the characters of `cs`, so every character outside
the table is kept as is, and a text without table characters is returned unchanged.
The examples of the specification hold. -/
theorem some_func_transliterates (input : List Nat) (cs : List Char) :
    some_func input = (runes input).flatMap translitStep ∧
    runes (utf8 cs) = cs.map Char.toNat ∧
    some_func (utf8 cs) =
      cs.flatMap (fun c =>
        match translitMap c.toNat with
        | some translitChar => translitChar
        | none => utf8 [c]) ∧
    ((∀ c ∈ cs, translitMap c.toNat = none) → some_func (utf8 cs) = utf8 cs) ∧
    some_func (goString "привет") = goString "privet" ∧
    some_func (goString "Виктор") = goString "Viktor" ∧
    some_func (goString "Хлеб") = goString "Khleb" ∧
    some_func (goString "hello") = goString "hello" := by
  have h3 : some_func (utf8 cs) =
      cs.flatMap (fun c =>
        match translitMap c.toNat with
        | some translitChar => translitChar
        | none => utf8 [c]) := by
    rw [some_func_eq, runes_utf8, List.flatMap_map]
    apply List.flatMap_congr
    intro c _
    unfold translitStep
    cases translitMap c.toNat <;> simp [utf8]
  refine ⟨some_func_eq input, runes_utf8 cs, h3, ?_, by decide, by decide, by decide, by decide⟩
  intro hnone
  rw [h3]
  unfold utf8
  apply List.flatMap_congr
  intro c hc
  simp [hnone c hc]

/-- Witness of C8: no character of `"hello"` is in the table. -/
theorem some_func_transliterates_witness :
    (∀ c ∈ "hello".data, translitMap c.toNat = none) ∧
    some_func (utf8 "hello".data) = utf8 "hello".data :=
  ⟨by decide, (some_func_transliterates [] "hello".data).2.2.2.1 (by decide)⟩


end VkTest
